import Mathlib

/-!
Verification of the Bing image ZIP downloader (`src/app.py`).

The development shallowly embeds the three pure helpers and the accumulation
loop of `app.py`, together with the module-level button handler, and proves
the specification's claims about them.

The external crawler (`BingImageCrawler.crawl`) only mutates the download
directory, and `count_images` only reads it, so the environment is modelled
as a pure function `env : List CrawlCall → Nat` giving the on-disk image
count after a given history of crawl invocations.  The loop threads the
history of crawl calls explicitly, which lets the theorems speak about the
offsets and batch sizes of every downloader invocation.
-/

namespace BingZip

/-- Python's `\w` character class (used with `re.UNICODE` in `safe_name`),
restricted to its ASCII core: letters, digits and the underscore.  The
Unicode extension of the class only enlarges the set of kept characters and
is orthogonal to every property proved in this file. -/
def isWordChar (c : Char) : Bool :=
  c.isAlphanum || c == '_'

/-- Python's `\s` character class, restricted to its ASCII core:
space, tab, newline, carriage return, vertical tab and form feed. -/
def isSpaceChar (c : Char) : Bool :=
  c == ' ' || c == '\t' || c == '\n' || c == '\r' || c == '\x0b' || c == '\x0c'

/-- A character survives `re.sub(r"[^\w\s-]", "", s)` exactly when it is a
word character, a whitespace character, or a hyphen. -/
def keepChar (c : Char) : Bool :=
  isWordChar c || isSpaceChar c || c == '-'

/-- Python's `str.strip()`: drop leading and trailing whitespace. -/
def stripChars (l : List Char) : List Char :=
  (l.dropWhile fun c => isSpaceChar c).rdropWhile fun c => isSpaceChar c

/-- Python's `re.sub(r"\s+", " ", s)`: replace every maximal run of
whitespace characters by a single space. -/
def collapseWS : List Char → List Char
  | [] => []
  | [c] => if isSpaceChar c then [' '] else [c]
  | c :: d :: rest =>
    if isSpaceChar c then
      (if isSpaceChar d then collapseWS (d :: rest) else ' ' :: collapseWS (d :: rest))
    else c :: collapseWS (d :: rest)

/-- `safe_name` from `src/app.py` (lines 12-16): strip the input, drop every
character outside `[\w\s-]`, collapse whitespace runs to single spaces,
strip again, and fall back to `"query"` when the result is empty. -/
def safe_name (s : String) : String :=
  let l1 := stripChars s.data
  let l2 := l1.filter keepChar
  let l3 := stripChars (collapseWS l2)
  if l3.isEmpty then "query" else String.mk l3

/-- One invocation of `crawler.crawl(keyword=..., offset=..., max_num=...)`. -/
structure CrawlCall where
  keyword : String
  offset : Nat
  maxNum : Nat
deriving DecidableEq, Repr

/-- The value returned by `download_until_target`, together with the trace of
crawler invocations performed by the run. -/
structure RunResult where
  finalCount : Nat
  exact : Bool
  calls : List CrawlCall
deriving DecidableEq, Repr

/-- Python's `int()` applied to a binary64 value held exactly as a rational:
truncation toward zero (`Int.tdiv` is T-division, exactly Python `int(q)`
for a fraction `q`). -/
def pyInt (q : ℚ) : Int :=
  Int.tdiv q.num (q.den : Int)

/-- Round a rational to the nearest integer, ties to even — the rounding
used by IEEE-754 binary arithmetic. -/
def rhe (y : ℚ) : Int :=
  if y - ⌊y⌋ < 1/2 then ⌊y⌋
  else if 1/2 < y - ⌊y⌋ then ⌊y⌋ + 1
  else if ⌊y⌋ % 2 = 0 then ⌊y⌋ else ⌊y⌋ + 1

/-- The binary exponent `e` with `2^e ≤ q < 2^(e+1)`, for the arguments that
arise here: `-1` on `[1/2, 1)`, otherwise the base-2 logarithm of the
integer part (correct for every `q ≥ 1`). -/
def binadeExp (q : ℚ) : Int :=
  if q < 1 then -1 else (Nat.log2 (Int.toNat ⌊q⌋) : Int)

/-- IEEE binary64 rounding of a positive rational: round to nearest, ties
to even, at the granularity `2^(e-52)` of the argument's binade.  Faithful
for `1/2 ≤ q < 2^53` — every value this file feeds it lies in `[1/2, 300]`. -/
def fl (q : ℚ) : ℚ :=
  if 0 < q then
    (rhe (q * 2 ^ (52 - binadeExp q).toNat) : ℚ) / 2 ^ (52 - binadeExp q).toNat
  else 0

/-- `min_needed = max(1, int(target * min_fraction))` — line 49 of
`src/app.py`, and verbatim again at line 129 in the button handler.
`target * min_fraction` is an IEEE binary64 multiplication (the integer
`target` converts exactly), modelled as the exact rational product followed
by the binary64 rounding `fl`; `int()` then truncates. -/
def minNeeded (target : Nat) (minFraction : ℚ) : Nat :=
  max 1 (pyInt (fl ((target : ℚ) * minFraction))).toNat

/-- The spec's formula for the threshold, following its words: the ceiling
of `target × min_fraction`, floored to at least 1. -/
def specMinNeededCeil (target : Nat) (minFraction : ℚ) : Nat :=
  max 1 (Int.toNat ⌈(target : ℚ) * minFraction⌉)

/-- The `for r in range(1, max_rounds + 1)` loop of `download_until_target`
(`src/app.py` lines 58-92).  `fuel` is the number of remaining rounds;
`offset`, `lastCount` and `stagnant` are the loop variables; `calls` is the
history of crawler invocations so far.  `env calls` is the current on-disk
image count (`count_images(download_dir)`). -/
def loopGo (env : List CrawlCall → Nat) (keyword : String)
    (target minNeed roundBatchSize : Nat) :
    Nat → Nat → Nat → Nat → List CrawlCall → RunResult
  | 0, _offset, _lastCount, _stagnant, calls =>
    -- the loop ran out of rounds: `final = count_images(...)` re-scan
    ⟨env calls, decide (target ≤ env calls), calls⟩
  | fuel + 1, offset, lastCount, stagnant, calls =>
    if target ≤ env calls then
      -- `if current >= target: return current, True`
      ⟨env calls, true, calls⟩
    else if 3 ≤ (if env calls = lastCount then stagnant + 1 else 0) ∧
        minNeed ≤ env calls then
      -- `if stagnant_rounds >= 3 and current >= min_needed: return current, False`
      ⟨env calls, false, calls⟩
    else if 4 ≤ (if env calls = lastCount then stagnant + 1 else 0) ∧
        env calls < minNeed then
      -- `if stagnant_rounds >= 4 and current < min_needed: break`, followed by
      -- the final re-scan `final = count_images(...)` after the loop
      ⟨env calls, decide (target ≤ env calls), calls⟩
    else
      -- `batch = min(round_batch_size, max(30, remaining * 2))`;
      -- `crawler.crawl(keyword, offset, max_num=int(batch))`; `offset += int(batch)`
      loopGo env keyword target minNeed roundBatchSize fuel
        (offset + min roundBatchSize (max 30 ((target - env calls) * 2)))
        (if env calls = lastCount then lastCount else env calls)
        (if env calls = lastCount then stagnant + 1 else 0)
        (calls ++ [⟨keyword, offset, min roundBatchSize (max 30 ((target - env calls) * 2))⟩])

/-- `download_until_target` from `src/app.py` (lines 36-92): run the loop for
`maxRounds` rounds starting from `offset = 0`, `last_count = 0`,
`stagnant_rounds = 0` and an empty crawl history. -/
def download_until_target (env : List CrawlCall → Nat) (keyword : String)
    (target : Nat) (minFraction : ℚ) (roundBatchSize : Nat) (maxRounds : Nat) :
    RunResult :=
  loopGo env keyword target (minNeeded target minFraction) roundBatchSize
    maxRounds 0 0 0 []

/-- The terminal state reached by the module-level button handler. -/
inductive Outcome where
  | invalidInput : Outcome
  | zeroResults : Outcome
  | builtZip (got : Nat) (exact : Bool) (warned : Bool) : Outcome
deriving DecidableEq, Repr

/-- Whether `make_zip_from_folder` was invoked on the way to an outcome. -/
def archiveBuilt : Outcome → Bool
  | .builtZip _ _ _ => true
  | _ => false

/-- The module-level button handler of `src/app.py` (lines 105-155):
sanitize the query, abort on `not q or q == "query"`, otherwise run
`download_until_target` with `round_batch_size=80`, abort with an error if
`got == 0`, otherwise warn when `got < min_needed` and build the ZIP.
The second component is the trace of crawler invocations performed. -/
def buttonHandler (env : List CrawlCall → Nat) (query : String)
    (limit : Nat) (minFraction : ℚ) (maxRounds : Nat) :
    Outcome × List CrawlCall :=
  let q := safe_name query
  if q = "" ∨ q = "query" then (Outcome.invalidInput, [])
  else
    let res := download_until_target env q limit minFraction 80 maxRounds
    if res.finalCount = 0 then (Outcome.zeroResults, res.calls)
    else
      (Outcome.builtZip res.finalCount res.exact
        (decide (res.finalCount < minNeeded limit minFraction)), res.calls)

/-! ## Basic facts about the sanitizer and the threshold -/

/-- The sanitizer can only return `"query"` or a string packing a non-empty
character list, so it never returns the empty string. -/
theorem safe_name_ne_empty (s : String) : safe_name s ≠ "" := by
  simp only [safe_name]
  by_cases h : (stripChars (collapseWS ((stripChars s.data).filter keepChar))).isEmpty
  · rw [if_pos h]
    decide
  · rw [if_neg h]
    intro heq
    have hnil : stripChars (collapseWS ((stripChars s.data).filter keepChar)) = [] :=
      congrArg String.data heq
    rw [hnil] at h
    exact h rfl

/-- C8: for every input string (empty, whitespace-only, punctuation-only or
otherwise), `safe_name` never returns an empty string: when the
strip/remove/collapse/strip pipeline empties the input it returns the fixed
fallback token `"query"`. -/
theorem safe_name_never_empty (s : String) : safe_name s ≠ "" :=
  safe_name_ne_empty s

/-- Nearest-integer rounding never goes below the floor. -/
theorem rhe_ge_floor (y : ℚ) : ⌊y⌋ ≤ rhe y := by
  unfold rhe
  split_ifs <;> omega

/-- Nearest-integer rounding never goes above the ceiling: the round-up
branches only fire when `y` is not an integer, and then `⌈y⌉ = ⌊y⌋ + 1`. -/
theorem rhe_le_ceil (y : ℚ) : rhe y ≤ ⌈y⌉ := by
  unfold rhe
  split_ifs with h1 h2 h3
  · exact Int.floor_le_ceil y
  · have hy : (⌊y⌋ : ℚ) < y := by linarith
    have := Int.lt_ceil.mpr hy
    omega
  · exact Int.floor_le_ceil y
  · have hr : (1 : ℚ)/2 ≤ y - ⌊y⌋ := le_of_not_lt h1
    have hy : (⌊y⌋ : ℚ) < y := by linarith
    have := Int.lt_ceil.mpr hy
    omega

/-- Binary64 rounding of a positive value never goes below its floor:
integers are multiples of the rounding granularity `2^(-k)`. -/
theorem floor_cast_le_fl (x : ℚ) (hx : 0 < x) : ((⌊x⌋ : ℚ)) ≤ fl x := by
  unfold fl
  rw [if_pos hx]
  set k := (52 - binadeExp x).toNat with hk
  have hpow : (0 : ℚ) < 2 ^ k := by positivity
  rw [le_div_iff₀ hpow]
  have h1 : (⌊x⌋ * (2 ^ k : ℤ) : ℤ) ≤ ⌊x * 2 ^ k⌋ := by
    rw [Int.le_floor]
    push_cast
    exact mul_le_mul_of_nonneg_right (Int.floor_le x) (by positivity)
  have h2 := rhe_ge_floor (x * 2 ^ k)
  exact_mod_cast le_trans h1 h2

/-- Binary64 rounding of a positive value never goes above its ceiling. -/
theorem fl_le_ceil_cast (x : ℚ) (hx : 0 < x) : fl x ≤ ((⌈x⌉ : ℚ)) := by
  unfold fl
  rw [if_pos hx]
  set k := (52 - binadeExp x).toNat with hk
  have hpow : (0 : ℚ) < 2 ^ k := by positivity
  rw [div_le_iff₀ hpow]
  have h1 : ⌈x * 2 ^ k⌉ ≤ (⌈x⌉ * (2 ^ k : ℤ) : ℤ) := by
    rw [Int.ceil_le]
    push_cast
    exact mul_le_mul_of_nonneg_right (Int.le_ceil x) (by positivity)
  have h2 := rhe_le_ceil (x * 2 ^ k)
  exact_mod_cast le_trans h2 h1

/-- Python's `int()` agrees with the mathematical floor on nonnegative
values. -/
theorem pyInt_eq_floor (q : ℚ) (hq : 0 ≤ q) : pyInt q = ⌊q⌋ := by
  unfold pyInt
  rw [Int.tdiv_eq_ediv (Rat.num_nonneg.mpr hq) (Int.ofNat_nonneg _)]
  rw [Rat.floor_def]

/-- C1 (counterexample): at `target = 3`, `min_fraction = 1/2` (both exactly
representable in binary64, so no rounding intervenes) the threshold
computed by the code (`max(1, int(target * min_fraction))`, line 49 and
line 129 of `src/app.py`) is `1`, while the ceiling formula claimed by the
spec gives `2`.  The code truncates; it does not take the ceiling. -/
theorem minNeeded_ceil_counterexample :
    ¬ (minNeeded 3 (1/2) = specMinNeededCeil 3 (1/2)) := by
  with_unfolding_all decide

/-- C1 (amended): for every `target ≥ 1` and `min_fraction ∈ [1/2, 1]` (the
exact value of the binary64 the handler receives), the minimum-needed
threshold used by the accumulation loop and by the caller equals the
truncation of the correctly-rounded binary64 product
`target * min_fraction`, floored to at least 1 — and therefore always lies
between `max(1, ⌊target·mf⌋)` and `max(1, ⌈target·mf⌉)`, since rounding to
nearest cannot cross the integer neighbours of the exact product.  (It is
not the ceiling, and because of float rounding it is not always the exact
floor either.) -/
theorem minNeeded_floor_ceil_bracket (target : ℕ) (mf : ℚ) (ht : 1 ≤ target)
    (h1 : 1/2 ≤ mf) (h2 : mf ≤ 1) :
    minNeeded target mf = max 1 (Int.toNat ⌊fl ((target : ℚ) * mf)⌋)
      ∧ max 1 (Int.toNat ⌊(target : ℚ) * mf⌋) ≤ minNeeded target mf
      ∧ minNeeded target mf ≤ max 1 (Int.toNat ⌈(target : ℚ) * mf⌉) := by
  have hmf0 : (0 : ℚ) < mf := lt_of_lt_of_le (by norm_num) h1
  have ht0 : (0 : ℚ) < (target : ℚ) := by
    have : 0 < target := lt_of_lt_of_le Nat.zero_lt_one ht
    exact_mod_cast this
  have hq : (0 : ℚ) < (target : ℚ) * mf := mul_pos ht0 hmf0
  have hlow : ((⌊(target : ℚ) * mf⌋ : ℚ)) ≤ fl ((target : ℚ) * mf) :=
    floor_cast_le_fl _ hq
  have hhigh : fl ((target : ℚ) * mf) ≤ ((⌈(target : ℚ) * mf⌉ : ℚ)) :=
    fl_le_ceil_cast _ hq
  have hfl0 : (0 : ℚ) ≤ fl ((target : ℚ) * mf) :=
    le_trans (by exact_mod_cast Int.floor_nonneg.mpr hq.le) hlow
  have hEq : minNeeded target mf = max 1 (Int.toNat ⌊fl ((target : ℚ) * mf)⌋) := by
    unfold minNeeded
    rw [pyInt_eq_floor _ hfl0]
  refine ⟨hEq, ?_, ?_⟩
  · have h3 : ⌊(target : ℚ) * mf⌋ ≤ ⌊fl ((target : ℚ) * mf)⌋ := Int.le_floor.mpr hlow
    rw [hEq]
    omega
  · have h4 : ⌊fl ((target : ℚ) * mf)⌋ ≤ ⌈(target : ℚ) * mf⌉ := by
      have := Int.floor_le_floor hhigh
      simpa using this
    rw [hEq]
    omega

/-- Witness for `minNeeded_floor_ceil_bracket` at `target = 3`,
`min_fraction = 2/3`. -/
theorem minNeeded_floor_ceil_bracket_witness :
    1 ≤ 3 ∧ (1 : ℚ)/2 ≤ 2/3 ∧ (2 : ℚ)/3 ≤ 1 ∧
      (minNeeded 3 (2/3) = max 1 (Int.toNat ⌊fl ((3 : ℚ) * (2/3))⌋)
        ∧ max 1 (Int.toNat ⌊(3 : ℚ) * (2/3)⌋) ≤ minNeeded 3 (2/3)
        ∧ minNeeded 3 (2/3) ≤ max 1 (Int.toNat ⌈(3 : ℚ) * (2/3)⌉)) :=
  ⟨by decide, by norm_num, by norm_num,
    minNeeded_floor_ceil_bracket 3 (2/3) (by decide) (by norm_num) (by norm_num)⟩

/-- Float rounding is visible at reachable inputs, so the bracket of
`minNeeded_floor_ceil_bracket` cannot be tightened to its lower end: with
the binary64 value nearest 0.7 (= 3152519739159347/2^52) and target 10, the
exact product is 6.999…96, but the binary64 multiplication rounds it (tie
to even) up to exactly 7.0, so the program's threshold is the ceiling 7,
not the exact floor 6. -/
theorem minNeeded_not_exact_floor :
    minNeeded 10 (mkRat 3152519739159347 4503599627370496)
        = max 1 (Int.toNat ⌈(10 : ℚ) * mkRat 3152519739159347 4503599627370496⌉)
      ∧ ¬ (minNeeded 10 (mkRat 3152519739159347 4503599627370496)
        = max 1 (Int.toNat ⌊(10 : ℚ) * mkRat 3152519739159347 4503599627370496⌋)) := by
  constructor
  · with_unfolding_all decide
  · with_unfolding_all decide

/-! ## The button handler's abort behaviour (C2, C9) -/

/-- C2 (counterexample): the search term `"query"` is non-empty and the
sanitizer maps it to the usable (non-empty) string `"query"`, yet the
handler aborts the run with the invalid-input message before any download
attempt — refuting the claim that every non-empty term with a usable
sanitization proceeds to the download phase. -/
theorem abort_on_literal_query :
    ("query" : String) ≠ "" ∧ safe_name "query" ≠ "" ∧
      (buttonHandler (fun _ => 0) "query" 5 (2/3) 3).1 = Outcome.invalidInput ∧
      (buttonHandler (fun _ => 0) "query" 5 (2/3) 3).2 = [] := by
  with_unfolding_all decide

/-- C2 (amended): a run is aborted before any download attempt (invalid-input
message, empty crawl trace) exactly when the sanitizer maps the supplied
term to the fallback token `"query"` — which covers empty and unsanitizable
input, but also any input sanitizing to the literal word `"query"`. -/
theorem abort_iff_fallback (env : List CrawlCall → Nat) (query : String)
    (limit : Nat) (mf : ℚ) (maxRounds : Nat) :
    ((buttonHandler env query limit mf maxRounds).1 = Outcome.invalidInput ∧
        (buttonHandler env query limit mf maxRounds).2 = []) ↔
      safe_name query = "query" := by
  simp only [buttonHandler]
  by_cases h : safe_name query = "" ∨ safe_name query = "query"
  · rcases h with h | h
    · exact absurd h (safe_name_ne_empty query)
    · rw [if_pos (Or.inr h)]
      simpa using h
  · rw [if_neg h]
    have hq : ¬ safe_name query = "query" := fun hb => h (Or.inr hb)
    simp only [hq, iff_false, not_and]
    intro h1
    exfalso
    by_cases h0 :
        (download_until_target env (safe_name query) limit mf 80 maxRounds).finalCount = 0
    · rw [if_pos h0] at h1
      exact absurd h1 (by simp)
    · rw [if_neg h0] at h1
      exact absurd h1 (by simp)

/-- C9: when the handler reaches the download phase and the loop's final
on-disk count is 0, the handler reports the zero-results error and the
archive builder is never invoked. -/
theorem zero_results_no_archive (env : List CrawlCall → Nat) (query : String)
    (limit : Nat) (mf : ℚ) (maxRounds : Nat)
    (hq : safe_name query ≠ "query")
    (h0 : (download_until_target env (safe_name query) limit mf 80 maxRounds).finalCount = 0) :
    buttonHandler env query limit mf maxRounds
        = (Outcome.zeroResults,
            (download_until_target env (safe_name query) limit mf 80 maxRounds).calls)
      ∧ archiveBuilt (buttonHandler env query limit mf maxRounds).1 = false := by
  have hcond : ¬(safe_name query = "" ∨ safe_name query = "query") := by
    rintro (h | h)
    · exact safe_name_ne_empty query h
    · exact hq h
  have hmain : buttonHandler env query limit mf maxRounds
      = (Outcome.zeroResults,
          (download_until_target env (safe_name query) limit mf 80 maxRounds).calls) := by
    simp only [buttonHandler]
    rw [if_neg hcond, if_pos h0]
  exact ⟨hmain, by rw [hmain]; rfl⟩

/-- Witness for `zero_results_no_archive`: a downloader that never saves a
file, query `"cats"`, target 5, minimum fraction 2/3, 3 rounds. -/
theorem zero_results_no_archive_witness :
    safe_name "cats" ≠ "query" ∧
      (download_until_target (fun _ => 0) (safe_name "cats") 5 (2/3) 80 3).finalCount = 0 ∧
      (buttonHandler (fun _ => 0) "cats" 5 (2/3) 3
          = (Outcome.zeroResults,
              (download_until_target (fun _ => 0) (safe_name "cats") 5 (2/3) 80 3).calls)
        ∧ archiveBuilt (buttonHandler (fun _ => 0) "cats" 5 (2/3) 3).1 = false) :=
  ⟨by decide, by with_unfolding_all decide,
    zero_results_no_archive (fun _ => 0) "cats" 5 (2/3) 3 (by decide)
      (by with_unfolding_all decide)⟩

/-! ## Per-round exit behaviour of the loop (C4, C5, C6) -/

/-- C4: if at the start of any round the on-disk image count is at least the
target, the loop returns that count paired with `true` immediately, issuing
no crawler call in that round or any later round (the trace is unchanged). -/
theorem exact_target_returns_immediately (env : List CrawlCall → Nat) (k : String)
    (t mn rbs fuel offset lc st : Nat) (calls : List CrawlCall)
    (h : t ≤ env calls) :
    loopGo env k t mn rbs (fuel + 1) offset lc st calls = ⟨env calls, true, calls⟩ := by
  simp only [loopGo]
  rw [if_pos h]

/-- Witness for `exact_target_returns_immediately`: a disk already holding 7
images with target 5. -/
theorem exact_target_returns_immediately_witness :
    5 ≤ (fun _ : List CrawlCall => 7) [] ∧
      loopGo (fun _ => 7) "k" 5 3 80 1 0 0 0 [] = ⟨7, true, []⟩ :=
  ⟨by decide,
    exact_target_returns_immediately (fun _ => 7) "k" 5 3 80 0 0 0 0 [] (by decide)⟩

/-- C5: if the count is unchanged from the recorded baseline and the
stagnation counter is already at 2 (so this round makes 3 or more
consecutive stagnant rounds), while the count is at least the
minimum-needed threshold and below the target, the loop returns
`(count, false)` at once, issuing no further crawler calls. -/
theorem stagnation_good_enough_exit (env : List CrawlCall → Nat) (k : String)
    (t mn rbs fuel offset lc st : Nat) (calls : List CrawlCall)
    (heq : env calls = lc) (hst : 2 ≤ st) (hmin : mn ≤ env calls)
    (hlt : env calls < t) :
    loopGo env k t mn rbs (fuel + 1) offset lc st calls = ⟨env calls, false, calls⟩ := by
  simp only [loopGo]
  rw [if_neg (Nat.not_le.mpr hlt)]
  rw [if_pos (And.intro (by rw [if_pos heq]; omega) hmin)]

/-- Witness for `stagnation_good_enough_exit`: the spec's own scenario —
70 images on disk, target 100, threshold 66, two stagnant rounds already
recorded; the loop reports `(70, false)`. -/
theorem stagnation_good_enough_exit_witness :
    (fun _ : List CrawlCall => 70) [] = 70 ∧ 2 ≤ 2 ∧
      66 ≤ (fun _ : List CrawlCall => 70) [] ∧
      (fun _ : List CrawlCall => 70) [] < 100 ∧
      loopGo (fun _ => 70) "k" 100 66 80 5 160 70 2 [] = ⟨70, false, []⟩ :=
  ⟨by decide, by decide, by decide, by decide,
    stagnation_good_enough_exit (fun _ => 70) "k" 100 66 80 4 160 70 2 []
      (by decide) (by decide) (by decide) (by decide)⟩

/-- C6: if the count is unchanged from the baseline with the stagnation
counter already at 3 (so this round makes 4 or more consecutive stagnant
rounds), while the count is still below the minimum-needed threshold (and
hence below the target), the loop breaks: no further crawler calls occur,
and the result is the final re-scan pair `(final count, final count ≥ target)`. -/
theorem stagnation_break_no_more_calls (env : List CrawlCall → Nat) (k : String)
    (t mn rbs fuel offset lc st : Nat) (calls : List CrawlCall)
    (heq : env calls = lc) (hst : 3 ≤ st) (hlow : env calls < mn)
    (hlt : env calls < t) :
    loopGo env k t mn rbs (fuel + 1) offset lc st calls
      = ⟨env calls, decide (t ≤ env calls), calls⟩ := by
  simp only [loopGo]
  rw [if_neg (Nat.not_le.mpr hlt)]
  rw [if_neg (fun hc => absurd hc.2 (Nat.not_le.mpr hlow))]
  rw [if_pos (And.intro (by rw [if_pos heq]; omega) hlow)]

/-- Witness for `stagnation_break_no_more_calls`: 40 images on disk, target
100, threshold 66, three stagnant rounds already recorded; the loop stops
with `(40, false)` and performs no further crawls. -/
theorem stagnation_break_no_more_calls_witness :
    (fun _ : List CrawlCall => 40) [] = 40 ∧ 3 ≤ 3 ∧
      (fun _ : List CrawlCall => 40) [] < 66 ∧
      (fun _ : List CrawlCall => 40) [] < 100 ∧
      loopGo (fun _ => 40) "k" 100 66 80 5 240 40 3 [] = ⟨40, false, []⟩ :=
  ⟨by decide, by decide, by decide, by decide,
    stagnation_break_no_more_calls (fun _ => 40) "k" 100 66 80 4 240 40 3 []
      (by decide) (by decide) (by decide) (by decide)⟩

/-! ## Trace invariants of the loop (C3, C7) -/

/-- The calls in a trace have consecutive offsets starting at `off`: each
call's offset is the running offset, which then advances by exactly that
call's requested batch size. -/
def offsetsFrom : Nat → List CrawlCall → Prop
  | _, [] => True
  | off, c :: rest => c.offset = off ∧ offsetsFrom (off + c.maxNum) rest

/-- Every call in a trace requests `min rbs (max 30 ((t - current) * 2))`
images, where `current` is the on-disk count at the start of its round,
i.e. `env` applied to the full history before the call (`pre` plus the
earlier calls of the trace). -/
def batchesFrom (env : List CrawlCall → Nat) (t rbs : Nat) :
    List CrawlCall → List CrawlCall → Prop
  | _, [] => True
  | pre, c :: rest =>
      c.maxNum = min rbs (max 30 ((t - env pre) * 2)) ∧
        batchesFrom env t rbs (pre ++ [c]) rest

/-- Main loop invariant: a run of `loopGo` only appends calls to the trace,
and the appended suffix has chained offsets starting at the current offset
and batch sizes given by the code's formula at each round. -/
theorem loopGo_calls_spec (env : List CrawlCall → Nat) (k : String) (t mn rbs : Nat) :
    ∀ (fuel offset lc st : Nat) (calls : List CrawlCall),
      ∃ suffix,
        (loopGo env k t mn rbs fuel offset lc st calls).calls = calls ++ suffix ∧
          offsetsFrom offset suffix ∧ batchesFrom env t rbs calls suffix := by
  intro fuel
  induction fuel with
  | zero =>
    intro offset lc st calls
    exact ⟨[], by simp [loopGo], trivial, trivial⟩
  | succ fuel ih =>
    intro offset lc st calls
    by_cases h1 : t ≤ env calls
    · exact ⟨[], by simp only [loopGo]; rw [if_pos h1]; simp, trivial, trivial⟩
    · by_cases h2 : 3 ≤ (if env calls = lc then st + 1 else 0) ∧ mn ≤ env calls
      · exact ⟨[], by simp only [loopGo]; rw [if_neg h1, if_pos h2]; simp, trivial, trivial⟩
      · by_cases h3 : 4 ≤ (if env calls = lc then st + 1 else 0) ∧ env calls < mn
        · exact ⟨[],
            by simp only [loopGo]; rw [if_neg h1, if_neg h2, if_pos h3]; simp,
            trivial, trivial⟩
        · obtain ⟨suffix, hcalls, hoff, hbat⟩ :=
            ih (offset + min rbs (max 30 ((t - env calls) * 2)))
              (if env calls = lc then lc else env calls)
              (if env calls = lc then st + 1 else 0)
              (calls ++ [⟨k, offset, min rbs (max 30 ((t - env calls) * 2))⟩])
          refine ⟨⟨k, offset, min rbs (max 30 ((t - env calls) * 2))⟩ :: suffix, ?_, ?_, ?_⟩
          · simp only [loopGo]
            rw [if_neg h1, if_neg h2, if_neg h3, hcalls]
            simp
          · exact ⟨rfl, hoff⟩
          · exact ⟨rfl, hbat⟩

/-- Indexed form of `offsetsFrom`: the i-th call's offset is the base offset
plus the sum of the batch sizes of the earlier calls of the trace. -/
theorem offsetsFrom_getD (d : CrawlCall) :
    ∀ (l : List CrawlCall) (off i : Nat), i < l.length → offsetsFrom off l →
      (l.getD i d).offset = off + ((l.take i).map CrawlCall.maxNum).sum := by
  intro l
  induction l with
  | nil => intro off i h; simp at h
  | cons c rest ih =>
    intro off i hi hfrom
    obtain ⟨hc, hrest⟩ := hfrom
    cases i with
    | zero => simpa using hc
    | succ i =>
      have hlen : i < rest.length := by simpa using hi
      have hih := ih (off + c.maxNum) i hlen hrest
      simp only [List.getD_cons_succ, List.take_succ_cons, List.map_cons, List.sum_cons]
      rw [hih]
      omega

/-- Indexed form of `batchesFrom`: the i-th call's batch size is the code's
formula evaluated at the on-disk count after the history before it. -/
theorem batchesFrom_getD (env : List CrawlCall → Nat) (t rbs : Nat) (d : CrawlCall) :
    ∀ (l pre : List CrawlCall) (i : Nat), i < l.length → batchesFrom env t rbs pre l →
      (l.getD i d).maxNum = min rbs (max 30 ((t - env (pre ++ l.take i)) * 2)) := by
  intro l
  induction l with
  | nil => intro pre i h; simp at h
  | cons c rest ih =>
    intro pre i hi hfrom
    obtain ⟨hc, hrest⟩ := hfrom
    cases i with
    | zero => simpa using hc
    | succ i =>
      have hlen : i < rest.length := by simpa using hi
      have hih := ih (pre ++ [c]) i hlen hrest
      simp only [List.getD_cons_succ, List.take_succ_cons]
      rw [hih, List.append_assoc, List.singleton_append]

/-- C3: in every run of the accumulation loop the offset starts at 0 and is
advanced after each call by exactly the batch size requested in that round:
the i-th crawler call's offset equals the sum of the batch sizes of calls
0..i-1, so offsets are never reset or decreased. -/
theorem offset_eq_sum_of_batches (env : List CrawlCall → Nat) (k : String)
    (t : Nat) (mf : ℚ) (rbs mr i : Nat)
    (h : i < (download_until_target env k t mf rbs mr).calls.length) :
    ((download_until_target env k t mf rbs mr).calls.getD i ⟨"", 0, 0⟩).offset
      = (((download_until_target env k t mf rbs mr).calls.take i).map
          CrawlCall.maxNum).sum := by
  obtain ⟨suffix, hcalls, hoff, _⟩ :=
    loopGo_calls_spec env k t (minNeeded t mf) rbs mr 0 0 0 []
  have hs : (download_until_target env k t mf rbs mr).calls = suffix := by
    simpa [download_until_target] using hcalls
  rw [hs] at h ⊢
  simpa using offsetsFrom_getD ⟨"", 0, 0⟩ suffix 0 i h hoff

/-- Witness for `offset_eq_sum_of_batches`: with a downloader that never
saves anything, target 1 and 2 rounds, the run makes two calls; the second
call's offset equals the first call's batch size. -/
theorem offset_eq_sum_of_batches_witness :
    1 < (download_until_target (fun _ => 0) "x" 1 (1/2) 80 2).calls.length ∧
      ((download_until_target (fun _ => 0) "x" 1 (1/2) 80 2).calls.getD 1 ⟨"", 0, 0⟩).offset
        = (((download_until_target (fun _ => 0) "x" 1 (1/2) 80 2).calls.take 1).map
            CrawlCall.maxNum).sum :=
  ⟨by with_unfolding_all decide,
    offset_eq_sum_of_batches (fun _ => 0) "x" 1 (1/2) 80 2 1
      (by with_unfolding_all decide)⟩

/-- C7: every crawler call requests exactly
`min(round_batch_size, max(30, (target - current) * 2))` images, where
`current` is the on-disk count at the start of its round; in particular no
call ever requests more than the per-round cap. -/
theorem batch_size_formula (env : List CrawlCall → Nat) (k : String)
    (t : Nat) (mf : ℚ) (rbs mr i : Nat)
    (h : i < (download_until_target env k t mf rbs mr).calls.length) :
    ((download_until_target env k t mf rbs mr).calls.getD i ⟨"", 0, 0⟩).maxNum
        = min rbs (max 30
            ((t - env ((download_until_target env k t mf rbs mr).calls.take i)) * 2))
      ∧ ((download_until_target env k t mf rbs mr).calls.getD i ⟨"", 0, 0⟩).maxNum ≤ rbs := by
  obtain ⟨suffix, hcalls, _, hbat⟩ :=
    loopGo_calls_spec env k t (minNeeded t mf) rbs mr 0 0 0 []
  have hs : (download_until_target env k t mf rbs mr).calls = suffix := by
    simpa [download_until_target] using hcalls
  rw [hs] at h ⊢
  have hmain := batchesFrom_getD env t rbs ⟨"", 0, 0⟩ suffix [] i h hbat
  simp only [List.nil_append] at hmain
  exact ⟨hmain, by rw [hmain]; exact min_le_left _ _⟩

/-- Witness for `batch_size_formula`: first call of the zero-yield run with
target 1 requests `min 80 (max 30 2) = 30` images, within the cap of 80. -/
theorem batch_size_formula_witness :
    0 < (download_until_target (fun _ => 0) "x" 1 (1/2) 80 2).calls.length ∧
      (((download_until_target (fun _ => 0) "x" 1 (1/2) 80 2).calls.getD 0 ⟨"", 0, 0⟩).maxNum
          = min 80 (max 30
              ((1 - (fun _ => 0)
                  ((download_until_target (fun _ => 0) "x" 1 (1/2) 80 2).calls.take 0)) * 2))
        ∧ ((download_until_target (fun _ => 0) "x" 1 (1/2) 80 2).calls.getD 0
            ⟨"", 0, 0⟩).maxNum ≤ 80) :=
  ⟨by with_unfolding_all decide,
    batch_size_formula (fun _ => 0) "x" 1 (1/2) 80 2 0 (by with_unfolding_all decide)⟩

/-! ## Idempotence of the sanitizer (C10) -/

/-- Two-step structural induction on lists, matching the recursion pattern
of `collapseWS`. -/
theorem twoStepInduction {motive : List Char → Prop} (h0 : motive [])
    (h1 : ∀ c, motive [c])
    (h2 : ∀ c d rest, motive (d :: rest) → motive rest → motive (c :: d :: rest)) :
    ∀ l, motive l
  | [] => h0
  | [c] => h1 c
  | c :: d :: rest =>
    h2 c d rest (twoStepInduction h0 h1 h2 (d :: rest)) (twoStepInduction h0 h1 h2 rest)

/-- If a list is unchanged by `dropWhile p`, so is any front portion of it. -/
theorem dropWhile_stable_front (p : Char → Bool) (X Y : List Char)
    (hX : X.dropWhile p = X) (hY : Y <+: X) : Y.dropWhile p = Y := by
  cases Y with
  | nil => rfl
  | cons y t =>
    obtain ⟨s, hs⟩ := hY
    by_cases hp : p y
    · exfalso
      have hXeq : X = y :: (t ++ s) := by rw [← hs]; rfl
      have h1 : X.dropWhile p = (t ++ s).dropWhile p := by
        rw [hXeq, List.dropWhile_cons, if_pos hp]
      rw [hX, hXeq] at h1
      have h2 := (List.dropWhile_sublist (l := t ++ s) p).length_le
      rw [← h1] at h2
      simp at h2
    · rw [List.dropWhile_cons, if_neg hp]

/-- The strip operation yields a contiguous middle portion of its input. -/
theorem stripChars_infixOf (l : List Char) : stripChars l <:+: l := by
  have h1 : ((l.dropWhile fun c => isSpaceChar c).rdropWhile fun c => isSpaceChar c)
      <+: (l.dropWhile fun c => isSpaceChar c) := List.rdropWhile_prefix _ _
  have h2 : (l.dropWhile fun c => isSpaceChar c) <:+ l := List.dropWhile_suffix _
  exact h1.isInfix.trans h2.isInfix

/-- Stripping is idempotent. -/
theorem stripChars_idem (l : List Char) : stripChars (stripChars l) = stripChars l := by
  have hdW : (stripChars l).dropWhile (fun c => isSpaceChar c) = stripChars l :=
    dropWhile_stable_front _ (l.dropWhile fun c => isSpaceChar c) _
      (List.dropWhile_idempotent _ _) ( List.rdropWhile_prefix _ _)
  show ((stripChars l).dropWhile fun c => isSpaceChar c).rdropWhile (fun c => isSpaceChar c)
      = stripChars l
  rw [hdW]
  show ((l.dropWhile fun c => isSpaceChar c).rdropWhile fun c => isSpaceChar c).rdropWhile
      (fun c => isSpaceChar c) = stripChars l
  exact List.rdropWhile_idempotent _ _

/-- Collapsing starts with the head when the head is not whitespace. -/
theorem collapseWS_cons_of_not_space {d : Char} (hd : isSpaceChar d = false)
    (rest : List Char) : collapseWS (d :: rest) = d :: collapseWS rest := by
  cases rest with
  | nil => simp [collapseWS, hd]
  | cons e rest' =>
    simp only [collapseWS]
    rw [if_neg (by simp [hd])]

/-- Every character in the output of `collapseWS` is either the single space
it inserts or a character of the input. -/
theorem mem_collapseWS :
    ∀ (l : List Char) (c : Char), c ∈ collapseWS l → c = ' ' ∨ c ∈ l := by
  refine twoStepInduction ?_ ?_ ?_
  · intro c h
    simp [collapseWS] at h
  · intro c x h
    by_cases hc : isSpaceChar c = true
    · simp [collapseWS, hc] at h
      exact Or.inl h
    · simp [collapseWS, hc] at h
      exact Or.inr (by simp [h])
  · intro c d rest ih1 _ x h
    by_cases hc : isSpaceChar c = true
    · by_cases hd : isSpaceChar d = true
      · simp only [collapseWS, if_pos hc, if_pos hd] at h
        rcases ih1 x h with h' | h'
        · exact Or.inl h'
        · exact Or.inr (List.mem_cons_of_mem _ h')
      · simp only [collapseWS, if_pos hc, if_neg hd] at h
        rcases List.mem_cons.mp h with h' | h'
        · exact Or.inl h'
        · rcases ih1 x h' with h'' | h''
          · exact Or.inl h''
          · exact Or.inr (List.mem_cons_of_mem _ h'')
    · simp only [collapseWS, if_neg hc] at h
      rcases List.mem_cons.mp h with h' | h'
      · exact Or.inr (h' ▸ List.mem_cons_self _ _)
      · rcases ih1 x h' with h'' | h''
        · exact Or.inl h''
        · exact Or.inr (List.mem_cons_of_mem _ h'')

/-- Every whitespace character in the output of `collapseWS` is the plain
space character. -/
theorem collapseWS_spaces_blank :
    ∀ (l : List Char) (c : Char), c ∈ collapseWS l → isSpaceChar c = true → c = ' ' := by
  refine twoStepInduction ?_ ?_ ?_
  · intro c h _
    simp [collapseWS] at h
  · intro c x h hsp
    by_cases hc : isSpaceChar c = true
    · simp [collapseWS, hc] at h
      exact h
    · simp [collapseWS, hc] at h
      subst h
      exact absurd hsp hc
  · intro c d rest ih1 _ x h hsp
    by_cases hc : isSpaceChar c = true
    · by_cases hd : isSpaceChar d = true
      · simp only [collapseWS, if_pos hc, if_pos hd] at h
        exact ih1 x h hsp
      · simp only [collapseWS, if_pos hc, if_neg hd] at h
        rcases List.mem_cons.mp h with h' | h'
        · exact h'
        · exact ih1 x h' hsp
    · simp only [collapseWS, if_neg hc] at h
      rcases List.mem_cons.mp h with h' | h'
      · subst h'
        exact absurd hsp hc
      · exact ih1 x h' hsp

/-- Adjacent characters in the output of `collapseWS` are never both
whitespace. -/
theorem collapseWS_chain' :
    ∀ l : List Char,
      List.Chain' (fun a b => ¬(isSpaceChar a = true ∧ isSpaceChar b = true))
        (collapseWS l) := by
  refine twoStepInduction ?_ ?_ ?_
  · simp [collapseWS]
  · intro c
    by_cases hc : isSpaceChar c = true <;> simp [collapseWS, hc]
  · intro c d rest ih1 _
    by_cases hc : isSpaceChar c = true
    · by_cases hd : isSpaceChar d = true
      · simpa only [collapseWS, if_pos hc, if_pos hd] using ih1
      · simp only [collapseWS, if_pos hc, if_neg hd]
        rw [collapseWS_cons_of_not_space (by simpa using hd)] at ih1 ⊢
        rw [List.chain'_cons]
        exact ⟨fun hco => hd hco.2, ih1⟩
    · simp only [collapseWS, if_neg hc]
      rw [List.chain'_cons']
      refine ⟨?_, ih1⟩
      intro y _
      exact fun hco => hc hco.1

/-- On a list whose whitespace is already normalized (all spaces plain,
no two adjacent), `collapseWS` is the identity. -/
theorem collapseWS_eq_self :
    ∀ l : List Char, (∀ c ∈ l, isSpaceChar c = true → c = ' ') →
      List.Chain' (fun a b => ¬(isSpaceChar a = true ∧ isSpaceChar b = true)) l →
      collapseWS l = l := by
  refine twoStepInduction ?_ ?_ ?_
  · intro _ _
    rfl
  · intro c hblank _
    by_cases hc : isSpaceChar c = true
    · have hce : c = ' ' := hblank c (by simp) hc
      subst hce
      simp [collapseWS, hc]
    · simp [collapseWS, hc]
  · intro c d rest ih1 _ hblank hchain
    have hchain' := (List.chain'_cons.mp hchain).2
    have hRcd := (List.chain'_cons.mp hchain).1
    have hblank' : ∀ x ∈ d :: rest, isSpaceChar x = true → x = ' ' :=
      fun x hx => hblank x (List.mem_cons_of_mem _ hx)
    by_cases hc : isSpaceChar c = true
    · have hcd : ¬ isSpaceChar d = true := fun hd => hRcd ⟨hc, hd⟩
      have hcsp : c = ' ' := hblank c (by simp) hc
      simp only [collapseWS, if_pos hc, if_neg hcd]
      rw [ih1 hblank' hchain', hcsp]
    · simp only [collapseWS, if_neg hc]
      rw [ih1 hblank' hchain']

/-- On an already fully sanitized character list, `safe_name` is the
identity. -/
theorem safe_name_mk_of_sanitized (l : List Char)
    (hkeep : ∀ c ∈ l, keepChar c = true)
    (hstrip : stripChars l = l)
    (hblank : ∀ c ∈ l, isSpaceChar c = true → c = ' ')
    (hchain : List.Chain' (fun a b => ¬(isSpaceChar a = true ∧ isSpaceChar b = true)) l)
    (hne : l ≠ []) :
    safe_name (String.mk l) = String.mk l := by
  have hdata : (String.mk l).data = l := rfl
  have hemp : l.isEmpty = false := by
    cases l with
    | nil => exact absurd rfl hne
    | cons a t => rfl
  simp only [safe_name, hdata]
  rw [hstrip, List.filter_eq_self.mpr hkeep, collapseWS_eq_self l hblank hchain, hstrip,
    hemp]
  simp

/-- C10: the sanitizer is idempotent — applying `safe_name` to its own
output returns that output unchanged. -/
theorem safe_name_idempotent (s : String) : safe_name (safe_name s) = safe_name s := by
  by_cases h : (stripChars (collapseWS ((stripChars s.data).filter keepChar))).isEmpty
  · have h1 : safe_name s = "query" := by
      simp only [safe_name]
      rw [if_pos h]
    rw [h1]
    decide
  · have h1 : safe_name s
        = String.mk (stripChars (collapseWS ((stripChars s.data).filter keepChar))) := by
      simp only [safe_name]
      rw [if_neg h]
    set t := stripChars (collapseWS ((stripChars s.data).filter keepChar)) with ht
    rw [h1]
    apply safe_name_mk_of_sanitized
    · intro c hc
      have hmem : c ∈ collapseWS ((stripChars s.data).filter keepChar) :=
        (stripChars_infixOf _).sublist.subset hc
      rcases mem_collapseWS _ c hmem with h' | h'
      · subst h'
        decide
      · exact List.of_mem_filter h'
    · exact stripChars_idem _
    · intro c hc hsp
      have hmem : c ∈ collapseWS ((stripChars s.data).filter keepChar) :=
        (stripChars_infixOf _).sublist.subset hc
      exact collapseWS_spaces_blank _ c hmem hsp
    · exact List.Chain'.infix (collapseWS_chain' _) (stripChars_infixOf _)
    · intro hnil
      rw [hnil] at h
      exact h rfl

end BingZip
